import Mathlib

/-!
Verification of the directed-graph container in `src/lib.rs`.

The Rust code stores a pool of vertices in a `Vec`; a `VertexId` is the
index of the vertex in that pool (`usize`), a `Weight` is a signed
integer (`i32`; the code only stores weights and never computes with
them, so `Int` embeds it faithfully).  `Vec<T>` is embedded as `List T`,
`Vec::push` as append of a singleton, `Vec::get_mut(i).map(f)` (mutate
in place when the index is in bounds, silently do nothing otherwise) as
`modifyAt` below, and `Option<&mut T>` as a read (`Option T`) together
with a write-through operation (`Graph.set_data`).
-/

namespace GraphAlgos

abbrev VertexId := Nat

abbrev Weight := Int

/-- `struct Edge { wt: Weight, other_id: VertexId }`. -/
structure Edge where
  wt : Weight
  other_id : VertexId
deriving DecidableEq, Repr

/-- `struct Vertex<T> { data: T, id: VertexId, out_edges: Vec<Edge>, in_edges: Vec<Edge> }`. -/
structure Vertex (T : Type) where
  data : T
  id : VertexId
  out_edges : List Edge
  in_edges : List Edge
deriving DecidableEq, Repr

/-- `pub struct Graph<T> { vertices: Vec<Vertex<T>> }`. -/
structure Graph (T : Type) where
  vertices : List (Vertex T)
deriving DecidableEq, Repr

variable {T : Type}

/-- `Vertex::new(id, data)`. -/
def Vertex.new (id : VertexId) (data : T) : Vertex T :=
  { data := data, id := id, out_edges := [], in_edges := [] }

/-- `Vertex::add_out(&mut self, id, wt)`: pushes `Edge { wt, other_id: id }`
onto `out_edges`. -/
def Vertex.add_out (v : Vertex T) (id : VertexId) (wt : Weight) : Vertex T :=
  { v with out_edges := v.out_edges ++ [{ wt := wt, other_id := id }] }

/-- `Vertex::add_in(&mut self, id, wt)`: pushes `Edge { wt, other_id: id }`
onto `in_edges`.  Present in the source but never called. -/
def Vertex.add_in (v : Vertex T) (id : VertexId) (wt : Weight) : Vertex T :=
  { v with in_edges := v.in_edges ++ [{ wt := wt, other_id := id }] }

/-- `Vec::get_mut(n).map(f)`: apply `f` in place at index `n`, do nothing
when `n` is out of bounds. -/
def modifyAt : List α → Nat → (α → α) → List α
  | [], _, _ => []
  | x :: xs, 0, f => f x :: xs
  | x :: xs, n + 1, f => x :: modifyAt xs n f

/-- `Graph::new()`. -/
def Graph.new : Graph T := { vertices := [] }

/-- `Graph::create_node(&mut self, data) -> VertexId`: appends a fresh vertex
whose id is the current pool length and returns that id. -/
def Graph.create_node (g : Graph T) (data : T) : Graph T × VertexId :=
  let next_idx := g.vertices.length
  let vx := Vertex.new next_idx data
  ({ vertices := g.vertices ++ [vx] }, next_idx)

/-- The read performed through `Graph::get_mut_data(&mut self, id) -> Option<&mut T>`:
`self.vertices.get_mut(id).map(|v| &mut v.data)`. -/
def Graph.get_mut_data (g : Graph T) (id : VertexId) : Option T :=
  (g.vertices.get? id).map Vertex.data

/-- A write through the mutable handle returned by `Graph::get_mut_data`:
replaces the `data` field of the vertex at `id` (no vertex is touched when
`id` is out of bounds, where the handle would be `None`). -/
def Graph.set_data (g : Graph T) (id : VertexId) (x : T) : Graph T :=
  { vertices := modifyAt g.vertices id (fun v => { v with data := x }) }

/-- `Graph::add_weighted_edge(&mut self, from_id, to_id, weight)`:
`self.vertices.get_mut(from_id).map(|vx| vx.add_out(to_id, weight))`. -/
def Graph.add_weighted_edge (g : Graph T) (from_id to_id : VertexId)
    (weight : Weight) : Graph T :=
  { vertices := modifyAt g.vertices from_id (fun vx => vx.add_out to_id weight) }

/-- `Graph::add_edge(&mut self, from_id, to_id)`: delegates to
`add_weighted_edge(from_id, to_id, 0)`. -/
def Graph.add_edge (g : Graph T) (from_id to_id : VertexId) : Graph T :=
  g.add_weighted_edge from_id to_id 0

/-- The edge list computed at the top of `Graph::draw`: for each vertex in
pool order, each outgoing edge becomes the pair `(vx.id, out.other_id)`,
flattened in insertion order.  This is the topology sequence handed to the
external exporter. -/
def Graph.draw_edges (g : Graph T) : List (VertexId × VertexId) :=
  g.vertices.flatMap (fun vx => vx.out_edges.map (fun out => (vx.id, out.other_id)))

/-- The topology sequence as the spec words it: per-vertex pair lists in
vertex-pool order, concatenated. -/
def topologySpec (g : Graph T) : List (VertexId × VertexId) :=
  (g.vertices.map (fun vx => vx.out_edges.map (fun e => (vx.id, e.other_id)))).flatten

/-- The public operations of the container; `getMutData` is the read-only
call, `setData` is a mutation through the handle it returns. -/
inductive Op (T : Type) where
  | create (data : T)
  | getMutData (id : VertexId)
  | setData (id : VertexId) (x : T)
  | addEdge (a b : VertexId)
  | addWeightedEdge (a b : VertexId) (w : Weight)

/-- The state transition of one operation. -/
def applyOp (g : Graph T) : Op T → Graph T
  | .create d => (g.create_node d).1
  | .getMutData _ => g
  | .setData id x => g.set_data id x
  | .addEdge a b => g.add_edge a b
  | .addWeightedEdge a b w => g.add_weighted_edge a b w

/-- Run a sequence of operations from a starting graph. -/
def applyOps (g : Graph T) (ops : List (Op T)) : Graph T :=
  ops.foldl applyOp g

/-- Does the operation mutate a payload through a `get_mut_data` handle? -/
def Op.isSetData : Op T → Bool
  | .setData _ _ => true
  | _ => false

/-- The pool invariant: the vertex stored at position `i` carries id `i`. -/
def WF (g : Graph T) : Prop :=
  ∀ i v, g.vertices.get? i = some v → v.id = i

/-- A sequence of `create_node` calls, returning the final graph and the
ids in issuance order. -/
def create_nodes (g : Graph T) : List T → Graph T × List VertexId
  | [] => (g, [])
  | d :: ds =>
    let p := g.create_node d
    let q := create_nodes p.1 ds
    (q.1, p.2 :: q.2)

/-- The end-to-end scenario of the test `tests::it_works`: three vertices
with payloads 0, 1, 2, then the two weighted edges; returns the final
graph together with the three ids the creation calls returned. -/
def scenario : Graph Nat × (VertexId × VertexId × VertexId) :=
  let p0 := (Graph.new (T := Nat)).create_node 0
  let p1 := p0.1.create_node 1
  let p2 := p1.1.create_node 2
  let g := (p2.1.add_weighted_edge p0.2 p2.2 1).add_weighted_edge p1.2 p2.2 2
  (g, (p0.2, p1.2, p2.2))

/-- Does the operation mutate the payload of vertex `i` through a
`get_mut_data` handle? -/
def Op.setsData : Op T → VertexId → Bool
  | .setData j _, i => j == i
  | _, _ => false

/-! ### Helper lemmas about `modifyAt` (the embedding of `Vec::get_mut(..).map(..)`) -/

theorem modifyAt_length (l : List α) (n : Nat) (f : α → α) :
    (modifyAt l n f).length = l.length := by
  induction l generalizing n with
  | nil => rfl
  | cons x xs ih =>
    cases n with
    | zero => rfl
    | succ n => simp [modifyAt, ih]

theorem modifyAt_get? (l : List α) (n : Nat) (f : α → α) (i : Nat) :
    (modifyAt l n f).get? i = if i = n then (l.get? n).map f else l.get? i := by
  induction l generalizing n i with
  | nil => simp [modifyAt]
  | cons x xs ih =>
    cases n with
    | zero =>
      cases i with
      | zero => simp [modifyAt]
      | succ i => simp [modifyAt]
    | succ n =>
      cases i with
      | zero => simp [modifyAt]
      | succ i => simpa [modifyAt] using ih n i

theorem modifyAt_len_le (l : List α) (n : Nat) (f : α → α) (h : l.length ≤ n) :
    modifyAt l n f = l := by
  induction l generalizing n with
  | nil => rfl
  | cons x xs ih =>
    cases n with
    | zero => exact absurd h (by simp)
    | succ n =>
      simp only [modifyAt, List.cons.injEq, true_and]
      exact ih n (by simpa using h)

theorem modifyAt_mem {l : List α} {n : Nat} {f : α → α} {v : α}
    (h : v ∈ modifyAt l n f) : v ∈ l ∨ ∃ u, u ∈ l ∧ v = f u := by
  induction l generalizing n with
  | nil => simp [modifyAt] at h
  | cons x xs ih =>
    cases n with
    | zero =>
      rcases List.mem_cons.mp h with h | h
      · exact .inr ⟨x, List.mem_cons_self x xs, h⟩
      · exact .inl (List.mem_cons_of_mem x h)
    | succ n =>
      rcases List.mem_cons.mp h with h | h
      · exact .inl (h ▸ List.mem_cons_self x xs)
      · rcases ih h with h | ⟨u, hu, hv⟩
        · exact .inl (List.mem_cons_of_mem x h)
        · exact .inr ⟨u, List.mem_cons_of_mem x hu, hv⟩

/-! ### Helper lemmas about the operations -/

theorem create_node_vertices (g : Graph T) (d : T) :
    (g.create_node d).1.vertices
      = g.vertices ++ [Vertex.new g.vertices.length d] := rfl

theorem create_node_snd (g : Graph T) (d : T) :
    (g.create_node d).2 = g.vertices.length := rfl

theorem applyOp_length_le (g : Graph T) (op : Op T) :
    g.vertices.length ≤ (applyOp g op).vertices.length := by
  cases op with
  | create d => simp [applyOp, create_node_vertices]
  | getMutData id => exact Nat.le_refl _
  | setData id x => simp [applyOp, Graph.set_data, modifyAt_length]
  | addEdge a b =>
    simp [applyOp, Graph.add_edge, Graph.add_weighted_edge, modifyAt_length]
  | addWeightedEdge a b w =>
    simp [applyOp, Graph.add_weighted_edge, modifyAt_length]

theorem applyOp_WF {g : Graph T} (op : Op T) (h : WF g) : WF (applyOp g op) := by
  have modif : ∀ (f : Vertex T → Vertex T), (∀ v, (f v).id = v.id) →
      ∀ n, WF ({ vertices := modifyAt g.vertices n f } : Graph T) := by
    intro f hf n i v hv
    have hv' : (if i = n then (g.vertices.get? n).map f else g.vertices.get? i)
        = some v := by
      rw [← modifyAt_get?]
      exact hv
    by_cases hi : i = n
    · rw [if_pos hi] at hv'
      obtain ⟨u, hu, hfu⟩ := Option.map_eq_some'.mp hv'
      rw [← hfu, hf u, hi]
      exact h n u hu
    · rw [if_neg hi] at hv'
      exact h i v hv'
  cases op with
  | create d =>
    intro i v hv
    simp only [applyOp, create_node_vertices] at hv
    by_cases hi : i < g.vertices.length
    · rw [List.get?_append hi] at hv
      exact h i v hv
    · have hle := Nat.le_of_not_lt hi
      rw [List.get?_append_right hle] at hv
      cases hd : i - g.vertices.length with
      | zero =>
        rw [hd] at hv
        have hv' : v = Vertex.new g.vertices.length d := by
          simpa using hv.symm
        subst hv'
        show g.vertices.length = i
        omega
      | succ m =>
        rw [hd] at hv
        simp at hv
  | getMutData id => exact h
  | setData id x => exact modif (fun v => { v with data := x }) (fun v => rfl) id
  | addEdge a b => exact modif (fun vx => vx.add_out b 0) (fun v => rfl) a
  | addWeightedEdge a b w => exact modif (fun vx => vx.add_out b w) (fun v => rfl) a

theorem applyOps_WF {g : Graph T} (ops : List (Op T)) (h : WF g) :
    WF (applyOps g ops) := by
  induction ops generalizing g with
  | nil => exact h
  | cons op ops ih => exact ih (applyOp_WF op h)

theorem WF_new : WF (Graph.new (T := T)) := by
  intro i v hv
  simp [Graph.new] at hv

theorem WF_applyOps_new (ops : List (Op T)) : WF (applyOps Graph.new ops) :=
  applyOps_WF ops WF_new

theorem create_nodes_ids (g : Graph T) (ds : List T) :
    (create_nodes g ds).2 = List.range' g.vertices.length ds.length := by
  induction ds generalizing g with
  | nil => rfl
  | cons d ds ih =>
    have hlen : (g.create_node d).1.vertices.length = g.vertices.length + 1 := by
      simp [create_node_vertices]
    show (g.create_node d).2 :: (create_nodes (g.create_node d).1 ds).2
        = List.range' g.vertices.length (ds.length + 1)
    rw [List.range'_succ, create_node_snd, ih, hlen]

theorem create_nodes_data (g : Graph T) (ds : List T) :
    (create_nodes g ds).1.vertices.map Vertex.data
      = g.vertices.map Vertex.data ++ ds := by
  induction ds generalizing g with
  | nil => simp [create_nodes]
  | cons d ds ih =>
    simp only [create_nodes]
    rw [ih]
    simp [create_node_vertices, Vertex.new]

theorem modifyAt_map_at {β : Type _} (l : List α) (n : Nat) (f : α → α)
    (proj : α → β) (hf : ∀ v, proj (f v) = proj v) (i : Nat) :
    ((modifyAt l n f).get? i).map proj = (l.get? i).map proj := by
  rw [modifyAt_get?]
  by_cases hi : i = n
  · rw [if_pos hi, hi]
    cases hg : l.get? n with
    | none => rfl
    | some v => simp [hf]
  · rw [if_neg hi]

theorem modifyAt_data_at (l : List (Vertex T)) (n : Nat) (f : Vertex T → Vertex T)
    (hf : ∀ v, (f v).data = v.data) (i : Nat) :
    ((modifyAt l n f).get? i).map Vertex.data = (l.get? i).map Vertex.data :=
  modifyAt_map_at l n f Vertex.data hf i

theorem applyOp_data_at (g : Graph T) (op : Op T) (i : Nat)
    (hi : i < g.vertices.length) (hop : op.setsData i = false) :
    ((applyOp g op).vertices.get? i).map Vertex.data
      = (g.vertices.get? i).map Vertex.data := by
  cases op with
  | create d =>
    simp only [applyOp, create_node_vertices]
    rw [List.get?_append hi]
  | getMutData id => rfl
  | setData j x =>
    have hj : j ≠ i := by simpa [Op.setsData] using hop
    show ((modifyAt g.vertices j
        (fun v => { v with data := x })).get? i).map Vertex.data = _
    rw [modifyAt_get?, if_neg (fun hij => hj hij.symm)]
  | addEdge a b =>
    exact modifyAt_data_at g.vertices a (fun vx => vx.add_out b 0) (fun v => rfl) i
  | addWeightedEdge a b w =>
    exact modifyAt_data_at g.vertices a (fun vx => vx.add_out b w) (fun v => rfl) i

theorem applyOps_data_at (g : Graph T) (ops : List (Op T)) (i : Nat)
    (hi : i < g.vertices.length) (hops : ∀ op ∈ ops, op.setsData i = false) :
    ((applyOps g ops).vertices.get? i).map Vertex.data
      = (g.vertices.get? i).map Vertex.data := by
  induction ops generalizing g with
  | nil => rfl
  | cons op ops ih =>
    have h1 := applyOp_data_at g op i hi (hops op (List.mem_cons_self op ops))
    have h2 := ih (applyOp g op) (Nat.lt_of_lt_of_le hi (applyOp_length_le g op))
      (fun o ho => hops o (List.mem_cons_of_mem op ho))
    exact h2.trans h1

/-- All incoming-edge lists of the graph are empty. -/
def NoIn (g : Graph T) : Prop := ∀ v ∈ g.vertices, v.in_edges = []

theorem applyOp_NoIn {g : Graph T} (op : Op T) (h : NoIn g) : NoIn (applyOp g op) := by
  have modif : ∀ (f : Vertex T → Vertex T), (∀ v, (f v).in_edges = v.in_edges) →
      ∀ n, NoIn ({ vertices := modifyAt g.vertices n f } : Graph T) := by
    intro f hf n v hv
    rcases modifyAt_mem hv with hv | ⟨u, hu, rfl⟩
    · exact h v hv
    · rw [hf u]
      exact h u hu
  cases op with
  | create d =>
    intro v hv
    simp only [applyOp, create_node_vertices, List.mem_append,
      List.mem_singleton] at hv
    rcases hv with hv | rfl
    · exact h v hv
    · rfl
  | getMutData id => exact h
  | setData id x => exact modif (fun v => { v with data := x }) (fun v => rfl) id
  | addEdge a b => exact modif (fun vx => vx.add_out b 0) (fun v => rfl) a
  | addWeightedEdge a b w => exact modif (fun vx => vx.add_out b w) (fun v => rfl) a

theorem applyOps_NoIn {g : Graph T} (ops : List (Op T)) (h : NoIn g) :
    NoIn (applyOps g ops) := by
  induction ops generalizing g with
  | nil => exact h
  | cons op ops ih => exact ih (applyOp_NoIn op h)

theorem NoIn_new : NoIn (Graph.new (T := T)) := by
  intro v hv
  simp [Graph.new] at hv

theorem count_draw_modify_add_out (l : List (Vertex T)) (n : Nat) (v : Vertex T)
    (hv : l.get? n = some v) (b : VertexId) (w : Weight) (p : VertexId × VertexId) :
    ((modifyAt l n (fun vx => vx.add_out b w)).flatMap
        (fun vx => vx.out_edges.map (fun e => (vx.id, e.other_id)))).count p
      = (l.flatMap
          (fun vx => vx.out_edges.map (fun e => (vx.id, e.other_id)))).count p
        + (if (v.id, b) = p then 1 else 0) := by
  induction l generalizing n with
  | nil => simp at hv
  | cons x xs ih =>
    cases n with
    | zero =>
      have hx : x = v := by simpa using hv
      subst hx
      have hs : List.count p [(x.id, b)] = if (x.id, b) = p then 1 else 0 := by
        simp [List.count_cons]
      simp only [modifyAt, List.flatMap_cons, Vertex.add_out, List.map_append,
        List.count_append, List.map_cons, List.map_nil, hs]
      omega
    | succ n =>
      have hv' : xs.get? n = some v := by simpa using hv
      simp only [modifyAt, List.flatMap_cons, List.count_append, ih n hv']
      omega

/-! ### The claims -/

/-- C1: starting from the empty graph, a sequence of `create_node` calls
returns the ids `0..N-1` in issuance order (each returned id is the pool
length at the moment of the call, and every call succeeds — `create_node`
is total and always returns an id), the stored payloads are exactly the
data passed to the creation calls, and each payload stays equal to its
creation data across any further operations that do not mutate that id
through a `get_mut_data` handle. -/
theorem create_ids_sequential_and_payloads (ds : List T) :
    (create_nodes Graph.new ds).2 = List.range ds.length ∧
    (create_nodes Graph.new ds).1.vertices.map Vertex.data = ds ∧
    ∀ ops : List (Op T), ∀ i, i < ds.length →
      (∀ op ∈ ops, op.setsData i = false) →
      ((applyOps (create_nodes Graph.new ds).1 ops).vertices.get? i).map
          Vertex.data
        = ds.get? i := by
  have hdata := create_nodes_data Graph.new ds
  have hids := create_nodes_ids Graph.new ds
  refine ⟨?_, ?_, ?_⟩
  · rw [hids]
    simp [Graph.new, List.range_eq_range']
  · rw [hdata]
    simp [Graph.new]
  · intro ops i hi hops
    have hlen : (create_nodes Graph.new ds).1.vertices.length = ds.length := by
      have hmap := congrArg List.length hdata
      simpa [Graph.new] using hmap
    rw [applyOps_data_at _ ops i (by omega) hops]
    rw [← List.get?_map Vertex.data, hdata]
    simp [Graph.new]

theorem create_ids_sequential_and_payloads_witness :
    (create_nodes (Graph.new (T := Nat)) [5, 7]).2 = List.range 2 ∧
    ((applyOps (create_nodes (Graph.new (T := Nat)) [5, 7]).1
        [Op.addEdge 0 1, Op.getMutData 0]).vertices.get? 0).map Vertex.data
      = [5, 7].get? 0 :=
  ⟨(create_ids_sequential_and_payloads [5, 7]).1,
   (create_ids_sequential_and_payloads [5, 7]).2.2
     [Op.addEdge 0 1, Op.getMutData 0] 0 (by decide) (by decide)⟩

/-- C2: every graph reachable from the empty graph through the public
operations satisfies the pool invariant `vertices[id].id = id`; every
single operation preserves the invariant, and no operation shrinks the
pool (the pool is append-only, so all issued ids remain valid). -/
theorem pool_invariant_reachable (ops : List (Op T)) :
    WF (applyOps Graph.new ops) ∧
    (∀ g : Graph T, ∀ op, WF g → WF (applyOp g op)) ∧
    (∀ g : Graph T, ∀ op, g.vertices.length ≤ (applyOp g op).vertices.length) :=
  ⟨WF_applyOps_new ops, fun _ op h => applyOp_WF op h,
   fun g op => applyOp_length_le g op⟩

theorem pool_invariant_reachable_witness :
    (Vertex.new 1 (4 : Nat)).id = 1 ∧
    (Graph.new (T := Nat)).vertices.length
      ≤ (applyOp (Graph.new (T := Nat)) (Op.create 3)).vertices.length :=
  ⟨(pool_invariant_reachable [Op.create 3, Op.create 4] (T := Nat)).1 1
     (Vertex.new 1 4) (by decide),
   (pool_invariant_reachable [] (T := Nat)).2.2 Graph.new (Op.create 3)⟩

/-- C3: on a well-formed graph, for a valid source id `a`,
`add_weighted_edge a b w` makes the exported topology contain the pair
`(a, b)` exactly once more than before, and the vertex at `b` gains no
entry in its incoming-edge list. -/
theorem add_weighted_edge_topology_count (g : Graph T) (a b : VertexId)
    (w : Weight) (hwf : WF g) (ha : a < g.vertices.length) :
    (g.add_weighted_edge a b w).draw_edges.count (a, b)
      = g.draw_edges.count (a, b) + 1 ∧
    ((g.add_weighted_edge a b w).vertices.get? b).map Vertex.in_edges
      = (g.vertices.get? b).map Vertex.in_edges := by
  obtain ⟨va, hva⟩ : ∃ va, g.vertices.get? a = some va := by
    cases hg : g.vertices.get? a with
    | none => exact absurd ha (Nat.not_lt.mpr (List.get?_eq_none.mp hg))
    | some va => exact ⟨va, rfl⟩
  have hid : va.id = a := hwf a va hva
  constructor
  · have hc := count_draw_modify_add_out g.vertices a va hva b w (a, b)
    rw [hid] at hc
    simpa [Graph.add_weighted_edge, Graph.draw_edges] using hc
  · exact modifyAt_map_at g.vertices a (fun vx => vx.add_out b w)
      Vertex.in_edges (fun v => rfl) b

theorem add_weighted_edge_topology_count_witness :
    ((applyOps (Graph.new (T := Nat))
        [Op.create 10, Op.create 20]).add_weighted_edge 0 1 7).draw_edges.count
        (0, 1)
      = (applyOps (Graph.new (T := Nat))
          [Op.create 10, Op.create 20]).draw_edges.count (0, 1) + 1 :=
  (add_weighted_edge_topology_count
    (applyOps (Graph.new (T := Nat)) [Op.create 10, Op.create 20]) 0 1 7
    (WF_applyOps_new [Op.create 10, Op.create 20]) (by decide)).1

/-- C4: when `from_id` is at or beyond the pool bounds, `add_weighted_edge`
is a silent no-op for every `to_id` and every weight — the whole graph
state, hence the exported topology and the pool size, is unchanged, and no
error is reported; `to_id` is never checked for existence (it ranges over
all ids here, created or not). -/
theorem add_weighted_edge_invalid_from_noop (g : Graph T)
    (from_id to_id : VertexId) (w : Weight) (h : g.vertices.length ≤ from_id) :
    g.add_weighted_edge from_id to_id w = g ∧
    (g.add_weighted_edge from_id to_id w).draw_edges = g.draw_edges ∧
    (g.add_weighted_edge from_id to_id w).vertices.length
      = g.vertices.length := by
  have hg : g.add_weighted_edge from_id to_id w = g := by
    have hm := modifyAt_len_le g.vertices from_id
      (fun vx => vx.add_out to_id w) h
    show Graph.mk (modifyAt g.vertices from_id
      (fun vx => vx.add_out to_id w)) = g
    rw [hm]
  exact ⟨hg, by rw [hg], by rw [hg]⟩

theorem add_weighted_edge_invalid_from_noop_witness :
    (applyOps (Graph.new (T := Nat)) [Op.create 1]).add_weighted_edge 5 9 3
      = applyOps (Graph.new (T := Nat)) [Op.create 1] :=
  (add_weighted_edge_invalid_from_noop
    (applyOps (Graph.new (T := Nat)) [Op.create 1]) 5 9 3 (by decide)).1

/-- C5: `get_mut_data` on an id at or beyond the pool size returns `none`;
on a valid id it returns the stored payload, a write through the returned
handle is visible on every subsequent read of that id, and nothing else
changes: every other pool slot, and the id and both edge lists of the
vertex itself, are untouched (the read itself does not modify the graph —
it is a plain function of the state). -/
theorem get_mut_data_contract (g : Graph T) (id : VertexId) :
    (g.vertices.length ≤ id → g.get_mut_data id = none) ∧
    (id < g.vertices.length →
      (∃ x, g.get_mut_data id = some x) ∧
      ∀ y : T, (g.set_data id y).get_mut_data id = some y) ∧
    (∀ y : T, ∀ j, j ≠ id →
      (g.set_data id y).vertices.get? j = g.vertices.get? j) ∧
    (∀ y : T,
      ((g.set_data id y).vertices.get? id).map Vertex.id
        = (g.vertices.get? id).map Vertex.id ∧
      ((g.set_data id y).vertices.get? id).map Vertex.out_edges
        = (g.vertices.get? id).map Vertex.out_edges ∧
      ((g.set_data id y).vertices.get? id).map Vertex.in_edges
        = (g.vertices.get? id).map Vertex.in_edges) := by
  refine ⟨?_, ?_, ?_, ?_⟩
  · intro h
    show (g.vertices.get? id).map Vertex.data = none
    rw [List.get?_eq_none.mpr h]
    rfl
  · intro h
    obtain ⟨v, hv⟩ : ∃ v, g.vertices.get? id = some v := by
      cases hg : g.vertices.get? id with
      | none => exact absurd h (Nat.not_lt.mpr (List.get?_eq_none.mp hg))
      | some v => exact ⟨v, rfl⟩
    refine ⟨⟨v.data, ?_⟩, ?_⟩
    · show (g.vertices.get? id).map Vertex.data = some v.data
      rw [hv]
      rfl
    · intro y
      show ((modifyAt g.vertices id
          (fun u => { u with data := y })).get? id).map Vertex.data = some y
      rw [modifyAt_get?, if_pos rfl, hv]
      rfl
  · intro y j hj
    show (modifyAt g.vertices id
        (fun u => { u with data := y })).get? j = g.vertices.get? j
    rw [modifyAt_get?, if_neg hj]
  · intro y
    exact ⟨modifyAt_map_at g.vertices id (fun u => { u with data := y })
        Vertex.id (fun v => rfl) id,
      modifyAt_map_at g.vertices id (fun u => { u with data := y })
        Vertex.out_edges (fun v => rfl) id,
      modifyAt_map_at g.vertices id (fun u => { u with data := y })
        Vertex.in_edges (fun v => rfl) id⟩

theorem get_mut_data_contract_witness :
    (Graph.new (T := Nat)).get_mut_data 0 = none ∧
    ((applyOps (Graph.new (T := Nat)) [Op.create 8]).set_data 0
        9).get_mut_data 0 = some 9 :=
  ⟨(get_mut_data_contract (Graph.new (T := Nat)) 0).1 (by decide),
   ((get_mut_data_contract (applyOps (Graph.new (T := Nat)) [Op.create 8])
       0).2.1 (by decide)).2 9⟩

/-- C6: `add_edge a b` leaves the graph in exactly the state of
`add_weighted_edge a b 0`. -/
theorem add_edge_eq_add_weighted_edge_zero (g : Graph T) (a b : VertexId) :
    g.add_edge a b = g.add_weighted_edge a b 0 := rfl

/-- C7: the edge list exported by `draw` is exactly the concatenation, in
vertex-pool order, of each vertex's outgoing list mapped to
`(source_id, destination_id)` pairs in insertion order; its elements are
bare id pairs, so it carries no weights and no payloads. -/
theorem draw_edges_eq_topologySpec (g : Graph T) :
    g.draw_edges = topologySpec g := by
  show g.vertices.flatMap _ = (g.vertices.map _).flatten
  induction g.vertices with
  | nil => rfl
  | cons x xs ih => simp only [List.flatMap_cons, List.map_cons,
      List.flatten_cons, ih]

/-- C8: the end-to-end scenario of `tests::it_works`: creating vertices
with payloads 0, 1, 2 returns ids 0, 1, 2; after
`add_weighted_edge 0 2 1` and `add_weighted_edge 1 2 2`, `get_mut_data`
reads back 0, 1, 2 and the exported topology is `[(0, 2), (1, 2)]`. -/
theorem scenario_end_to_end :
    scenario.2 = (0, 1, 2) ∧
    scenario.1.get_mut_data 0 = some 0 ∧
    scenario.1.get_mut_data 1 = some 1 ∧
    scenario.1.get_mut_data 2 = some 2 ∧
    scenario.1.draw_edges = [(0, 2), (1, 2)] :=
  ⟨rfl, rfl, rfl, rfl, rfl⟩

/-- C9: the pool-lookup operations are total and never abort: for every id,
out of bounds `get_mut_data` returns the absent value and
`add_weighted_edge` leaves the graph untouched, while in bounds both
return normally (a payload, resp. a same-size pool). -/
theorem pool_lookup_never_aborts (g : Graph T) (id to_id : VertexId)
    (w : Weight) :
    (g.vertices.length ≤ id →
      g.get_mut_data id = none ∧ g.add_weighted_edge id to_id w = g) ∧
    (id < g.vertices.length →
      (∃ x, g.get_mut_data id = some x) ∧
      (g.add_weighted_edge id to_id w).vertices.length
        = g.vertices.length) := by
  constructor
  · intro h
    refine ⟨?_, ?_⟩
    · show (g.vertices.get? id).map Vertex.data = none
      rw [List.get?_eq_none.mpr h]
      rfl
    · have hm := modifyAt_len_le g.vertices id (fun vx => vx.add_out to_id w) h
      show Graph.mk (modifyAt g.vertices id
        (fun vx => vx.add_out to_id w)) = g
      rw [hm]
  · intro h
    refine ⟨?_, ?_⟩
    · obtain ⟨v, hv⟩ : ∃ v, g.vertices.get? id = some v := by
        cases hg : g.vertices.get? id with
        | none => exact absurd h (Nat.not_lt.mpr (List.get?_eq_none.mp hg))
        | some v => exact ⟨v, rfl⟩
      refine ⟨v.data, ?_⟩
      show (g.vertices.get? id).map Vertex.data = some v.data
      rw [hv]
      rfl
    · exact modifyAt_length g.vertices id (fun vx => vx.add_out to_id w)

theorem pool_lookup_never_aborts_witness :
    ((Graph.new (T := Nat)).get_mut_data 0 = none ∧
      (Graph.new (T := Nat)).add_weighted_edge 0 1 2 = Graph.new) ∧
    (∃ x, (applyOps (Graph.new (T := Nat))
        [Op.create 6]).get_mut_data 0 = some x) :=
  ⟨(pool_lookup_never_aborts (Graph.new (T := Nat)) 0 1 2).1 (by decide),
   ((pool_lookup_never_aborts (applyOps (Graph.new (T := Nat)) [Op.create 6])
       0 1 2).2 (by decide)).1⟩

/-- C10: on every graph reachable from the empty graph through the public
operations, every vertex's incoming-edge list is empty: no public
operation ever appends to `in_edges` (`Vertex.add_in` has no caller), so
the incoming side is vestigial. -/
theorem in_edges_always_empty (ops : List (Op T)) (v : Vertex T)
    (hv : v ∈ (applyOps Graph.new ops).vertices) : v.in_edges = [] :=
  applyOps_NoIn ops NoIn_new v hv

theorem in_edges_always_empty_witness :
    ({ data := 1, id := 0, out_edges := [{ wt := 0, other_id := 0 }],
        in_edges := [] } : Vertex Nat).in_edges = [] :=
  in_edges_always_empty [Op.create 1, Op.addEdge 0 0]
    { data := 1, id := 0, out_edges := [{ wt := 0, other_id := 0 }],
      in_edges := [] } (by decide)

end GraphAlgos
